import Mathlib

/-!
Shallow embedding of the gap buffer from `src/src/lib.rs`.

The Rust code manipulates four raw pointers (`buf_start`, `gap_start`,
`gap_end`, `buf_end`) into a single heap allocation.  The allocation is
modelled as a list of bytes, a byte being `Option Nat` with `none` for
uninitialized storage (as produced by `malloc`/`realloc`); the two interior
pointers become indices `gs` (`gap_start`) and `ge` (`gap_end`), while
`buf_start` is index 0 and `buf_end` is the length of the list (`grow_gap`
sets `buf_end` to its new `gap_end`, which on every state with
`gap_start <= gap_end <= buf_end` is exactly the end of the enlarged
allocation, so the identification is faithful there; every state the public
API builds satisfies that ordering).  Pointer differences, which the source
computes as `isize`, are nonnegative on such states and are rendered as
natural subtraction.  A libc `memmove`/`memcpy` whose source or destination
range leaves the allocation, or a pointer offset past one-past-the-end, is
undefined behaviour; the embedding surfaces that as the explicit fault
`Fault.ub`.  An `assert!`/`panic!` failure is `Fault.panic`.
-/

abbrev Byte := Option Nat

structure GapBuffer where
  buf : List Byte
  gs : Nat
  ge : Nat
deriving DecidableEq

inductive Fault where
  | panic
  | ub
deriving DecidableEq

abbrev GBRes := Except Fault GapBuffer

/-- Overwrite the bytes of `l` starting at index `i` with `s`: the effect of
`memcpy`, or of `memmove` once the source bytes have been captured (libc
`memmove` behaves as if the source range were first copied aside, which is
what makes it overlap-safe). -/
def splice (l : List α) (i : Nat) (s : List α) : List α :=
  l.take i ++ s ++ l.drop (i + s.length)

/-- Binary exponent of the least significant retained bit when a natural
number is rounded to an IEEE-754 single-precision significand (24 bits):
0 for numbers below `2 ^ 24`, and `bits n - 24` above.  The search bound 64
covers every value a nonnegative `isize` can hold. -/
def f32Exp (n : Nat) : Nat :=
  ((List.range 64).filter (fun e => 2 ^ (24 + e) ≤ n)).length

/-- `needed as f32` for a nonnegative `isize` value: round to 24 significant
bits, ties to even. -/
def roundF32 (n : Nat) : Nat :=
  if n < 2 ^ 24 then n
  else
    let p := 2 ^ f32Exp n
    let q := n / p
    let r := n % p
    if 2 * r < p then q * p
    else if p < 2 * r then (q + 1) * p
    else if q % 2 = 0 then q * p
    else (q + 1) * p

/-- `CHUNK_SIZE` from the source. -/
def CHUNK_SIZE : Nat := 32

/-- The number of bytes `grow_gap` decides to add:
`((needed as f32 / CHUNK_SIZE as f32).ceil() as isize) * CHUNK_SIZE`.
Dividing a binary float by 32 only shifts its exponent and `ceil` of the
quotient is exactly representable here, so the single inexact step is the
`as f32` conversion, modelled by `roundF32`; the exact ceiling of the exact
division by 32 is `(x + 31) / 32` on naturals. -/
def chunkModel (needed : Nat) : Nat :=
  ((roundF32 needed + (CHUNK_SIZE - 1)) / CHUNK_SIZE) * CHUNK_SIZE

/-- `GapBuffer::with_capacity`: a capacity-sized uninitialized allocation,
entirely gap.  (The malloc-failure `panic!` is an allocator event outside
the model; the model always yields the buffer.) -/
def with_capacity (capacity : Nat) : GapBuffer :=
  { buf := List.replicate capacity none, gs := 0, ge := capacity }

/-- `GapBuffer::gap_len`. -/
def gap_len (b : GapBuffer) : Nat := b.ge - b.gs

/-- `GapBuffer::buf_len`: `head_len + tail_len`. -/
def buf_len (b : GapBuffer) : Nat := b.gs + (b.buf.length - b.ge)

/-- `head() ++ tail()`: the logical content, what `to_string` renders. -/
def content (b : GapBuffer) : List Byte := b.buf.take b.gs ++ b.buf.drop b.ge

/-- `GapBuffer::clear`. -/
def clear (b : GapBuffer) : GapBuffer := { b with gs := 0, ge := b.buf.length }

/-- Structural invariant `buf_start <= gap_start <= gap_end <= buf_end`. -/
abbrev wf (b : GapBuffer) : Prop := b.gs ≤ b.ge ∧ b.ge ≤ b.buf.length

/-- `GapBuffer::move_gap_to`.  `diff = (buf_start + offset) - gap_start`; the
branch on the sign of `diff` becomes a comparison of `offset` with `gs`.
Moving left the code sets `gap_start := buf_start + offset`,
`gap_end := gap_start + gap_len`, then `memmove(gap_end, gap_start, -diff)`.
Moving right it advances `gap_end` and `gap_start` by `diff` first, then
calls `memmove(buf_start + offset, gap_start, diff)` with the already
updated `gap_start` (which equals `buf_start + offset`).  The right branch
can push `gap_end` or the `memmove` range past the end of the allocation,
which is undefined behaviour (`Fault.ub`); in the left branch the ranges
stay inside the allocation whenever `gs <= ge <= len`. -/
def move_gap_to (b : GapBuffer) (offset : Nat) : GBRes :=
  if offset = b.gs then .ok b
  else if offset < b.gs then
    .ok { buf := splice b.buf (offset + gap_len b)
                  ((b.buf.drop offset).take (b.gs - offset)),
          gs := offset, ge := offset + gap_len b }
  else
    if b.ge + (offset - b.gs) ≤ b.buf.length ∧
        offset + (offset - b.gs) ≤ b.buf.length then
      .ok { buf := splice b.buf offset
                    ((b.buf.drop (b.gs + (offset - b.gs))).take (offset - b.gs)),
            gs := b.gs + (offset - b.gs), ge := b.ge + (offset - b.gs) }
    else .error .ub

/-- `GapBuffer::grow_gap` (with `allocate_extra` inlined: `realloc` extends
the allocation by `chunk` uninitialized bytes; the model keeps indices
stable, i.e. the realloc is in-place).  Then
`memmove(gap_start, gap_end, tail_len)` slides the tail down so it follows
the head directly, and the pointers are rebuilt so the whole enlarged gap
sits after head and tail, with `buf_end = gap_end`. -/
def grow_gap (b : GapBuffer) (size : Nat) : GapBuffer :=
  let available := gap_len b
  let needed := size - available
  let chunk := chunkModel needed
  let tail_len := b.buf.length - b.ge
  let new_gap_size := gap_len b + chunk
  let bl := b.gs + tail_len
  let buf1 := b.buf ++ List.replicate chunk none
  { buf := splice buf1 b.gs ((buf1.drop b.ge).take tail_len),
    gs := bl, ge := bl + new_gap_size }

/-- `GapBuffer::insert_str`: grow when `s.len() > gap_len()`, slide the gap
to `offset`, then `memcpy` the payload at `gap_start` and advance
`gap_start` by `s.len()`.  The `memcpy` is undefined behaviour when its
destination range leaves the allocation. -/
def insert_str (b : GapBuffer) (offset : Nat) (s : List Byte) : GBRes :=
  match move_gap_to (if gap_len b < s.length then grow_gap b s.length else b) offset with
  | .error f => .error f
  | .ok b2 =>
    if b2.gs + s.length ≤ b2.buf.length then
      .ok { buf := splice b2.buf b2.gs s, gs := b2.gs + s.length, ge := b2.ge }
    else .error .ub

/-- `GapBuffer::remove`: three `assert!`s, then capture `to_string`, split
it, `clear`, and reinsert the retained pieces with two `insert_str` calls
(the second at `head.len()`). -/
def remove (b : GapBuffer) (start stop : Nat) : GBRes :=
  if start < stop then
    if start < buf_len b then
      if stop ≤ buf_len b then
        match insert_str (clear b) 0 ((content b).take start) with
        | .error f => .error f
        | .ok b2 =>
          insert_str b2 ((content b).take start).length ((content b).drop stop)
      else .error .panic
    else .error .panic
  else .error .panic

/-- Modelled from the spec (reference semantics of `remove`): capture the
full logical content, split it into the portion before `start` and the
portion from `stop` onward, discard the removed span, clear the buffer to
an all-gap state, and reinsert the retained head at offset 0 and the
retained tail at offset `len(head)` via two `insert` calls. -/
def removeSpec (b : GapBuffer) (start stop : Nat) : GBRes :=
  match insert_str (clear b) 0 ((content b).take start) with
  | .error f => .error f
  | .ok b2 =>
    insert_str b2 ((content b).take start).length ((content b).drop stop)

/-- Concrete eight-byte buffer holding the digits 1..8 (the state reached by
`with_capacity 8` followed by inserting the eight digit bytes at offset 0). -/
def buf8 : GapBuffer :=
  ⟨[some 49, some 50, some 51, some 52, some 53, some 54, some 55, some 56], 8, 8⟩


instance {ε α : Type} [DecidableEq ε] [DecidableEq α] : DecidableEq (Except ε α) :=
  fun a b =>
  match a, b with
  | .ok x, .ok y =>
    if h : x = y then .isTrue (congrArg Except.ok h)
    else .isFalse (fun hc => h (Except.ok.inj hc))
  | .error x, .error y =>
    if h : x = y then .isTrue (congrArg Except.error h)
    else .isFalse (fun hc => h (Except.error.inj hc))
  | .ok _, .error _ => .isFalse (fun hc => Except.noConfusion hc)
  | .error _, .ok _ => .isFalse (fun hc => Except.noConfusion hc)

theorem splice_length {α : Type} (l : List α) (i : Nat) (s : List α)
    (h : i + s.length ≤ l.length) : (splice l i s).length = l.length := by
  simp [splice]
  omega

theorem splice_take_of_le {α : Type} (l : List α) {i k : Nat} (s : List α)
    (hk : k ≤ i) (hi : i ≤ l.length) : (splice l i s).take k = l.take k := by
  have h3 : (l.take i).length = i := by rw [List.length_take]; omega
  rw [splice, List.append_assoc, List.take_append_eq_append_take, h3,
    Nat.sub_eq_zero_of_le hk, List.take_zero, List.append_nil, List.take_take,
    Nat.min_eq_left hk]

theorem splice_drop_start {α : Type} (l : List α) {i : Nat} (s : List α)
    (h : i ≤ l.length) : (splice l i s).drop i = s ++ l.drop (i + s.length) := by
  have h3 : (l.take i).length = i := by rw [List.length_take]; omega
  rw [splice, List.append_assoc]
  exact List.drop_left' h3

theorem splice_take_end {α : Type} (l : List α) {i : Nat} (s : List α)
    (h : i ≤ l.length) : (splice l i s).take (i + s.length) = l.take i ++ s := by
  have h3 : (l.take i ++ s).length = i + s.length := by
    rw [List.length_append, List.length_take]; omega
  rw [splice]
  exact List.take_left' h3

theorem splice_drop_of_ge {α : Type} (l : List α) {i j : Nat} (s : List α)
    (hi : i ≤ l.length) (hj : i + s.length ≤ j) : (splice l i s).drop j = l.drop j := by
  have h3 : (l.take i ++ s).length = i + s.length := by
    rw [List.length_append, List.length_take]; omega
  have h1 : (splice l i s).drop (i + s.length) = l.drop (i + s.length) := by
    rw [splice]
    exact List.drop_left' h3
  calc (splice l i s).drop j
      = ((splice l i s).drop (i + s.length)).drop (j - (i + s.length)) := by
        rw [List.drop_drop]; congr 1; omega
    _ = (l.drop (i + s.length)).drop (j - (i + s.length)) := by rw [h1]
    _ = l.drop j := by rw [List.drop_drop]; congr 1; omega

theorem content_length (b : GapBuffer) (hwf : wf b) :
    (content b).length = buf_len b := by
  simp [content, buf_len]
  omega

theorem move_gap_to_left (b : GapBuffer) (offset : Nat) (hwf : wf b)
    (h : offset ≤ b.gs) :
    ∃ b2, move_gap_to b offset = .ok b2 ∧ b2.gs = offset ∧
      b2.ge = offset + gap_len b ∧ b2.buf.length = b.buf.length ∧
      content b2 = content b ∧ wf b2 := by
  obtain ⟨hge, hcap⟩ := hwf
  by_cases heq : offset = b.gs
  · refine ⟨b, ?_, heq.symm, ?_, rfl, rfl, hge, hcap⟩
    · rw [move_gap_to, if_pos heq]
    · rw [heq, gap_len]; omega
  · have hlt : offset < b.gs := lt_of_le_of_ne h heq
    have hseg : ((b.buf.drop offset).take (b.gs - offset)).length = b.gs - offset := by
      rw [List.length_take, List.length_drop]; omega
    have hgl : gap_len b = b.ge - b.gs := rfl
    have hib : offset + gap_len b ≤ b.buf.length := by rw [hgl]; omega
    have hsl : (splice b.buf (offset + gap_len b)
        ((b.buf.drop offset).take (b.gs - offset))).length = b.buf.length := by
      rw [splice_length]
      rw [hseg, hgl]; omega
    refine ⟨{ buf := splice b.buf (offset + gap_len b)
                ((b.buf.drop offset).take (b.gs - offset)),
              gs := offset, ge := offset + gap_len b }, ?_, rfl, rfl, hsl, ?_, ?_⟩
    · rw [move_gap_to, if_neg heq, if_pos hlt]
    · simp only [content]
      rw [splice_take_of_le b.buf _ (by omega) hib,
        splice_drop_start b.buf _ hib]
      have hend : offset + gap_len b
          + ((b.buf.drop offset).take (b.gs - offset)).length = b.ge := by
        rw [hseg, hgl]; omega
      rw [hend, ← List.append_assoc]
      congr 1
      have h4 := List.take_add b.buf offset (b.gs - offset)
      rw [Nat.add_sub_cancel' h] at h4
      exact h4.symm
    · refine ⟨?_, ?_⟩
      · show offset ≤ offset + gap_len b
        omega
      · show offset + gap_len b ≤ (splice b.buf (offset + gap_len b)
            ((b.buf.drop offset).take (b.gs - offset))).length
        rw [hsl]; exact hib

theorem move_gap_to_ok_gs (b : GapBuffer) (offset : Nat) (b2 : GapBuffer)
    (h : move_gap_to b offset = .ok b2) : b2.gs = offset := by
  rw [move_gap_to] at h
  split_ifs at h with h1 h2 h3
  · rw [← Except.ok.inj h]; exact h1.symm
  · rw [← Except.ok.inj h]
  · rw [← Except.ok.inj h]
    show b.gs + (offset - b.gs) = offset
    omega

theorem grow_gap_eq (b : GapBuffer) (size : Nat) (hwf : wf b) :
    grow_gap b size =
      { buf := splice (b.buf ++ List.replicate (chunkModel (size - gap_len b)) none)
                 b.gs (b.buf.drop b.ge),
        gs := buf_len b,
        ge := buf_len b + (gap_len b + chunkModel (size - gap_len b)) } := by
  obtain ⟨hge, hcap⟩ := hwf
  have hseg : ((b.buf ++ List.replicate (chunkModel (size - gap_len b)) none).drop
      b.ge).take (b.buf.length - b.ge) = b.buf.drop b.ge := by
    rw [List.drop_append_eq_append_drop, Nat.sub_eq_zero_of_le hcap, List.drop_zero]
    exact List.take_left' (by rw [List.length_drop])
  simp only [grow_gap]
  rw [hseg]
  simp only [buf_len]

theorem grow_gap_gs (b : GapBuffer) (size : Nat) (hwf : wf b) :
    (grow_gap b size).gs = buf_len b := by
  rw [grow_gap_eq b size hwf]

theorem grow_gap_length (b : GapBuffer) (size : Nat) (hwf : wf b) :
    (grow_gap b size).buf.length = b.buf.length + chunkModel (size - gap_len b) := by
  rw [grow_gap_eq b size hwf]
  show (splice _ _ _).length = _
  rw [splice_length, List.length_append, List.length_replicate]
  rw [List.length_append, List.length_replicate, List.length_drop]
  omega

theorem grow_gap_ge (b : GapBuffer) (size : Nat) (hwf : wf b) :
    (grow_gap b size).ge = b.buf.length + chunkModel (size - gap_len b) := by
  rw [grow_gap_eq b size hwf]
  show buf_len b + (gap_len b + chunkModel (size - gap_len b)) = _
  have h1 := hwf.1
  have h2 := hwf.2
  simp only [buf_len, gap_len]
  omega

theorem grow_gap_gap (b : GapBuffer) (size : Nat) (hwf : wf b) :
    gap_len (grow_gap b size) = gap_len b + chunkModel (size - gap_len b) := by
  show (grow_gap b size).ge - (grow_gap b size).gs = _
  rw [grow_gap_ge b size hwf, grow_gap_gs b size hwf]
  have h1 := hwf.1
  have h2 := hwf.2
  simp only [buf_len, gap_len]
  omega

theorem grow_gap_wf (b : GapBuffer) (size : Nat) (hwf : wf b) :
    wf (grow_gap b size) := by
  constructor
  · rw [grow_gap_gs b size hwf, grow_gap_ge b size hwf]
    have h1 := hwf.1
    have h2 := hwf.2
    simp only [buf_len]
    omega
  · rw [grow_gap_ge b size hwf, grow_gap_length b size hwf]

theorem grow_gap_content (b : GapBuffer) (size : Nat) (hwf : wf b) :
    content (grow_gap b size) = content b := by
  have hge := hwf.1
  have hcap := hwf.2
  rw [grow_gap_eq b size hwf]
  simp only [content]
  have hlen1 : (b.buf ++ List.replicate (chunkModel (size - gap_len b)) none).length
      = b.buf.length + chunkModel (size - gap_len b) := by
    rw [List.length_append, List.length_replicate]
  have hsl : (splice (b.buf ++ List.replicate (chunkModel (size - gap_len b)) none)
      b.gs (b.buf.drop b.ge)).length
      = b.buf.length + chunkModel (size - gap_len b) := by
    rw [splice_length, hlen1]
    rw [hlen1, List.length_drop]
    omega
  have hdrop : (splice (b.buf ++ List.replicate (chunkModel (size - gap_len b)) none)
      b.gs (b.buf.drop b.ge)).drop
        (buf_len b + (gap_len b + chunkModel (size - gap_len b))) = [] := by
    apply List.drop_eq_nil_of_le
    rw [hsl]
    simp only [buf_len, gap_len]
    omega
  have hbl : buf_len b = b.gs + (b.buf.drop b.ge).length := by
    simp only [buf_len, List.length_drop]
  have htake : (splice (b.buf ++ List.replicate (chunkModel (size - gap_len b)) none)
      b.gs (b.buf.drop b.ge)).take (buf_len b)
      = (b.buf ++ List.replicate (chunkModel (size - gap_len b)) none).take b.gs
        ++ b.buf.drop b.ge := by
    rw [hbl]
    exact splice_take_end _ _ (by rw [hlen1]; omega)
  rw [hdrop, htake, List.append_nil]
  rw [List.take_append_eq_append_take, Nat.sub_eq_zero_of_le (by omega : b.gs ≤ b.buf.length),
    List.take_zero, List.append_nil]

theorem insert_str_eq_ok (b b1 m : GapBuffer) (offset : Nat) (s : List Byte)
    (hb1 : (if gap_len b < s.length then grow_gap b s.length else b) = b1)
    (hm : move_gap_to b1 offset = .ok m)
    (hle : m.gs + s.length ≤ m.buf.length) :
    insert_str b offset s
      = .ok { buf := splice m.buf m.gs s, gs := m.gs + s.length, ge := m.ge } := by
  simp only [insert_str, hb1, hm]
  rw [if_pos hle]

theorem chunkModel_ge (n : Nat) (h : n ≤ 2 ^ 24) : n ≤ chunkModel n := by
  rcases Nat.lt_or_ge n (2 ^ 24) with h1 | h1
  · rw [chunkModel, roundF32, if_pos h1]
    show n ≤ (n + (CHUNK_SIZE - 1)) / CHUNK_SIZE * CHUNK_SIZE
    simp only [CHUNK_SIZE]
    omega
  · have h2 : n = 2 ^ 24 := le_antisymm h h1
    subst h2
    decide

theorem insert_str_core (b b1 : GapBuffer) (offset : Nat) (s : List Byte)
    (hb1 : (if gap_len b < s.length then grow_gap b s.length else b) = b1)
    (hwf1 : wf b1) (hoff : offset ≤ b1.gs) (hs : s.length ≤ gap_len b1) :
    ∃ b2, insert_str b offset s = .ok b2 ∧ wf b2 ∧ b2.gs = offset + s.length ∧
      b2.ge = offset + gap_len b1 ∧ b2.buf.length = b1.buf.length ∧
      content b2 = (content b1).take offset ++ s ++ (content b1).drop offset := by
  obtain ⟨m, hm, hmgs, hmge, hmlen, hmc, hmwf⟩ := move_gap_to_left b1 offset hwf1 hoff
  have hmcap2 := hmwf.2
  have hle : m.gs + s.length ≤ m.buf.length := by
    rw [hmgs, hmlen]
    rw [hmge, hmlen] at hmcap2
    omega
  have hmcap : m.gs ≤ m.buf.length := by omega
  have hgap : m.gs + s.length ≤ m.ge := by
    rw [hmgs, hmge]
    omega
  have hsl : (splice m.buf m.gs s).length = m.buf.length := splice_length _ _ _ hle
  have htk : (m.buf.take m.gs).length = m.gs := by rw [List.length_take]; omega
  have hc1 : (content b1).take offset = m.buf.take m.gs := by
    rw [← hmc]
    simp only [content]
    rw [← hmgs]
    exact List.take_left' htk
  have hc2 : (content b1).drop offset = m.buf.drop m.ge := by
    rw [← hmc]
    simp only [content]
    rw [← hmgs]
    exact List.drop_left' htk
  refine ⟨_, insert_str_eq_ok b b1 m offset s hb1 hm hle, ?_, ?_, ?_, ?_, ?_⟩
  · constructor
    · show m.gs + s.length ≤ m.ge
      exact hgap
    · show m.ge ≤ (splice m.buf m.gs s).length
      rw [hsl]
      exact hmcap2
  · show m.gs + s.length = offset + s.length
    rw [hmgs]
  · show m.ge = offset + gap_len b1
    exact hmge
  · show (splice m.buf m.gs s).length = b1.buf.length
    rw [hsl, hmlen]
  · show (splice m.buf m.gs s).take (m.gs + s.length)
        ++ (splice m.buf m.gs s).drop m.ge = _
    rw [splice_take_end m.buf s hmcap, splice_drop_of_ge m.buf s hmcap hgap]
    rw [hc1, hc2]

theorem insert_str_total (b : GapBuffer) (offset : Nat) (s : List Byte)
    (hwf : wf b) (hoff : offset ≤ b.gs)
    (hfit : s.length ≤ gap_len b ∨ s.length - gap_len b ≤ 2 ^ 24) :
    ∃ b2, insert_str b offset s = .ok b2 ∧ wf b2 ∧ b2.gs = offset + s.length ∧
      content b2 = (content b).take offset ++ s ++ (content b).drop offset := by
  by_cases hg : gap_len b < s.length
  · have hfit2 : s.length - gap_len b ≤ 2 ^ 24 := by
      rcases hfit with h | h
      · omega
      · exact h
    have hchunk := chunkModel_ge (s.length - gap_len b) hfit2
    have hwf1 := grow_gap_wf b s.length hwf
    have hgap1 := grow_gap_gap b s.length hwf
    have hgs1 := grow_gap_gs b s.length hwf
    have hcon1 := grow_gap_content b s.length hwf
    have hoff1 : offset ≤ (grow_gap b s.length).gs := by
      rw [hgs1]
      have := hwf.1
      have := hwf.2
      simp only [buf_len]
      omega
    have hs1 : s.length ≤ gap_len (grow_gap b s.length) := by
      rw [hgap1]
      omega
    obtain ⟨b2, h1, h2, h3, _, _, h6⟩ :=
      insert_str_core b (grow_gap b s.length) offset s (if_pos hg) hwf1 hoff1 hs1
    rw [hcon1] at h6
    exact ⟨b2, h1, h2, h3, h6⟩
  · obtain ⟨b2, h1, h2, h3, _, _, h6⟩ :=
      insert_str_core b b offset s (if_neg hg) hwf hoff (by omega)
    exact ⟨b2, h1, h2, h3, h6⟩

theorem remove_eq_ok (b : GapBuffer) (start stop : Nat) (b2 b3 : GapBuffer)
    (h1 : start < stop) (h2 : start < buf_len b) (h3 : stop ≤ buf_len b)
    (hi1 : insert_str (clear b) 0 ((content b).take start) = .ok b2)
    (hi2 : insert_str b2 ((content b).take start).length ((content b).drop stop)
      = .ok b3) :
    remove b start stop = .ok b3 := by
  simp only [remove, if_pos h1, if_pos h2, if_pos h3, hi1]
  exact hi2

theorem clear_wf (b : GapBuffer) : wf (clear b) := ⟨Nat.zero_le _, le_refl _⟩

theorem remove_valid_ok (b : GapBuffer) (start stop : Nat) (hwf : wf b)
    (h1 : start < stop) (h2 : start < buf_len b) (h3 : stop ≤ buf_len b) :
    ∃ b3, remove b start stop = .ok b3 ∧ b3.buf.length = b.buf.length ∧ wf b3 := by
  have hL : (content b).length = buf_len b := content_length b hwf
  have hgapc : gap_len (clear b) = b.buf.length := by
    simp [gap_len, clear]
  have hblc : buf_len b ≤ b.buf.length := by
    have := hwf.1
    have := hwf.2
    simp only [buf_len]
    omega
  have hhd : ((content b).take start).length = start := by
    rw [List.length_take]
    omega
  have htl : ((content b).drop stop).length = buf_len b - stop := by
    rw [List.length_drop, hL]
  obtain ⟨b2, hi1, hwf2, hgs2, hge2, hlen2, _⟩ :=
    insert_str_core (clear b) (clear b) 0 ((content b).take start)
      (if_neg (by rw [hgapc, hhd]; omega)) (clear_wf b) (Nat.zero_le _)
      (by rw [hgapc, hhd]; omega)
  have hlenc : (clear b).buf.length = b.buf.length := rfl
  have hgap2 : gap_len b2 = b.buf.length - start := by
    simp only [gap_len]
    rw [hge2, hgs2, hgapc, hhd]
    omega
  obtain ⟨b3, hi2, hwf3, hgs3, hge3, hlen3, _⟩ :=
    insert_str_core b2 b2 ((content b).take start).length ((content b).drop stop)
      (if_neg (by rw [hgap2, htl]; omega)) hwf2
      (by rw [hgs2, hhd]; omega)
      (by rw [hgap2, htl]; omega)
  refine ⟨b3, remove_eq_ok b start stop b2 b3 h1 h2 h3 hi1 hi2, ?_, hwf3⟩
  rw [hlen3, hlen2, hlenc]

/-- C3: calling `remove` with a range violating `start < end`, or
`start < logical_length`, or `end <= logical_length` fails the `assert!`
contract checks (a panic, `Fault.panic`), and since checks precede every
mutation the function produces no successor state: the buffer's logical
content is untouched and no partial mutation is visible. -/
theorem remove_invalid_range_panics (b : GapBuffer) (start stop : Nat)
    (h : ¬start < stop ∨ ¬start < buf_len b ∨ ¬stop ≤ buf_len b) :
    remove b start stop = .error .panic := by
  rw [remove]
  split_ifs with h1 h2 h3
  · rcases h with h | h | h
    · exact absurd h1 h
    · exact absurd h2 h
    · exact absurd h3 h
  all_goals rfl

/-- C4: for every range satisfying the preconditions, `remove` is exactly
the spec's reference semantics: render the logical content, split it before
`start` and from `end` onward, clear to an all-gap state, reinsert the
retained head at 0 and the retained tail at `len(head)` via two inserts. -/
theorem remove_matches_reference (b : GapBuffer) (start stop : Nat)
    (h1 : start < stop) (h2 : start < buf_len b) (h3 : stop ≤ buf_len b) :
    remove b start stop = removeSpec b start stop := by
  simp only [remove, removeSpec, if_pos h1, if_pos h2, if_pos h3]

/-- C9: a `remove` whose range satisfies the preconditions succeeds and
never changes the capacity: the retained head (`start` bytes) fits the
cleared buffer's gap (the whole old allocation), and the retained tail
(`len - stop` bytes) fits what is left of it, so neither reinsertion
triggers `grow_gap`. -/
theorem remove_preserves_capacity (b : GapBuffer) (start stop : Nat)
    (hwf : wf b) (h1 : start < stop) (h2 : start < buf_len b)
    (h3 : stop ≤ buf_len b) :
    ∃ b3, remove b start stop = .ok b3 ∧ b3.buf.length = b.buf.length := by
  obtain ⟨b3, hr, hlen, _⟩ := remove_valid_ok b start stop hwf h1 h2 h3
  exact ⟨b3, hr, hlen⟩

/-- C10: whenever `insert_str` at a valid offset returns a state, the gap
begins immediately after the inserted bytes: the head length (`gap_start`)
equals `offset + len(data)`, whether or not the call grew the gap and in
whichever direction it moved it. -/
theorem insert_gap_follows_data (b : GapBuffer) (offset : Nat) (s : List Byte)
    (b2 : GapBuffer) (_hwf : wf b) (_hoff : offset ≤ buf_len b)
    (h : insert_str b offset s = .ok b2) : b2.gs = offset + s.length := by
  cases hmv : move_gap_to (if gap_len b < s.length then grow_gap b s.length else b)
      offset with
  | error f =>
    rw [insert_str, hmv] at h
    exact Except.noConfusion h
  | ok m =>
    simp only [insert_str, hmv] at h
    split_ifs at h with hle
    · rw [← Except.ok.inj h]
      show m.gs + s.length = offset + s.length
      rw [move_gap_to_ok_gs _ _ _ hmv]

/-- C1 (code bug evaluation): the insert postcondition fails on a reachable
buffer.  Starting from capacity 2, inserting the bytes `AB` at 0, then `X`
at 0, gives logical content `XAB`; inserting `Y` at offset 2 — a valid
offset, but past the current gap position — must yield
`content.take 2 ++ Y ++ content.drop 2 = XAYB`, yet the right-moving
`move_gap_to` calls `memmove` with equal source and destination, so a stale
gap byte (`B`) enters the head and the code produces `XBYB`. -/
theorem insert_after_gap_misplaces :
    ((insert_str (with_capacity 2) 0 [some 65, some 66]).bind fun x =>
        insert_str x 0 [some 88]).map content = .ok [some 88, some 65, some 66] ∧
    ((insert_str (with_capacity 2) 0 [some 65, some 66]).bind fun x =>
        (insert_str x 0 [some 88]).bind fun y =>
          insert_str y 2 [some 89]).map content
      = .ok [some 88, some 66, some 89, some 66] ∧
    ([some 88, some 66, some 89, some 66] : List Byte)
      ≠ ([some 88, some 65, some 66] : List Byte).take 2 ++ [some 89]
          ++ ([some 88, some 65, some 66] : List Byte).drop 2 := by
  decide

/-- C2 (code bug evaluation): moving the gap right does advance both gap
boundaries by the move distance, but the `memmove` is issued after
`gap_start` has already been advanced, so source and destination coincide
and no byte is transferred.  On the buffer `|A|·|B C|` (head `A`, one-byte
gap holding stale byte `X`, tail `B C`), moving the gap from 1 to 2 leaves
the allocation untouched: the stale gap byte `X` becomes head content and
the tail byte `B` is swallowed by the gap — head ++ tail changes from
`A B C` to `A X C`. -/
theorem move_right_is_noop_memmove :
    move_gap_to ⟨[some 65, some 88, some 66, some 67], 1, 2⟩ 2
      = .ok ⟨[some 65, some 88, some 66, some 67], 2, 3⟩ ∧
    content ⟨[some 65, some 88, some 66, some 67], 1, 2⟩
      = [some 65, some 66, some 67] ∧
    content ⟨[some 65, some 88, some 66, some 67], 2, 3⟩
      = [some 65, some 88, some 67] ∧
    ([some 65, some 88, some 67] : List Byte) ≠ [some 65, some 66, some 67] := by
  decide

/-- C5 (code bug evaluation): `insert_str` performs no range check at all.
On a buffer of logical length 2, inserting at offset 3 is neither detected
nor reported: the gap is grown (head becomes the whole content, length 2),
then the right-moving branch advances `gap_end` past `buf_end` and calls
`memmove` outside the allocation — undefined behaviour (`Fault.ub`),
i.e. silent memory corruption rather than a fatal assertion or an error
value. -/
theorem insert_out_of_range_is_ub :
    buf_len ⟨[some 65, some 66], 2, 2⟩ = 2 ∧
    insert_str ⟨[some 65, some 66], 2, 2⟩ 3 [some 57] = .error .ub := by
  decide

/-- C6 (code bug evaluation): `grow_gap` rounds the shortfall through `f32`,
whose significand holds 24 bits.  For the shortfall `2 ^ 24 + 1` the
conversion rounds down (ties-to-even at granularity 2), so the chunk is
`2 ^ 24` — smaller than the shortfall — and a buffer with an empty gap
grows to a gap of only `2 ^ 24` bytes, one short of the payload, instead of
the next multiple of 32 at or above it. -/
theorem grow_chunk_rounds_below_shortfall :
    chunkModel (2 ^ 24 + 1) = 2 ^ 24 ∧
    gap_len (grow_gap ⟨[some 49, some 50], 1, 1⟩ (2 ^ 24 + 1)) = 2 ^ 24 ∧
    2 ^ 24 < 2 ^ 24 + 1 := by
  refine ⟨by decide, ?_, by decide⟩
  rw [grow_gap_gap _ _ (by decide)]
  decide

/-- C8 (code bug evaluation): inserting `2 ^ 24 + 1` bytes at offset 0 into
the two-byte buffer `1|·|2` (head `1`, empty gap, tail `2`) triggers the
`f32`-rounded growth of C6: the gap becomes `2 ^ 24` bytes, one short, and
the final `memcpy` — still inside the allocation, hence no fault — advances
`gap_start` one byte past `gap_end`.  The resulting state violates
`gap_start <= gap_end` (a negative gap, with head and tail overlapping), so
insert at a valid offset does not preserve the structural invariant. -/
theorem insert_huge_breaks_invariant :
    ∃ b2, insert_str ⟨[some 49, some 50], 1, 1⟩ 0
        (List.replicate (2 ^ 24 + 1) (some 48)) = .ok b2 ∧
      b2.ge < b2.gs ∧ ¬ wf b2 := by
  have hslen : (List.replicate (2 ^ 24 + 1) (some 48 : Byte)).length = 2 ^ 24 + 1 := by
    rw [List.length_replicate]
  set b : GapBuffer := ⟨[some 49, some 50], 1, 1⟩ with hb
  set s : List Byte := List.replicate (2 ^ 24 + 1) (some 48) with hsdef
  have hwfb : wf b := by constructor <;> decide
  have hgap : gap_len b = 0 := by decide
  have hcap : b.buf.length = 2 := by decide
  have hbl : buf_len b = 2 := by decide
  have hg : gap_len b < s.length := by rw [hgap, hslen]; omega
  have hchunk : chunkModel (s.length - gap_len b) = 2 ^ 24 := by
    rw [hslen, hgap]
    decide
  obtain ⟨m, hm, hmgs, hmge, hmlen, _, _⟩ :=
    move_gap_to_left (grow_gap b s.length) 0 (grow_gap_wf b s.length hwfb)
      (Nat.zero_le _)
  have hle : m.gs + s.length ≤ m.buf.length := by
    rw [hmgs, hmlen, grow_gap_length b s.length hwfb, hchunk, hcap, hslen]
    omega
  refine ⟨_, insert_str_eq_ok b (grow_gap b s.length) m 0 s (if_pos hg) hm hle,
    ?_, ?_⟩
  · show m.ge < m.gs + s.length
    rw [hmge, hmgs, grow_gap_gap b s.length hwfb, hchunk, hslen, hgap]
    omega
  · intro hwf2
    have h1 := hwf2.1
    have h2 : m.ge < m.gs + s.length := by
      rw [hmge, hmgs, grow_gap_gap b s.length hwfb, hchunk, hslen, hgap]
      omega
    exact absurd h1 (by show ¬ m.gs + s.length ≤ m.ge; omega)

/-- C7 (counterexample): inserting `A` at offset 0 and then `B` at the same
offset 0 yields `BA`, while the single call inserting `A ++ B` at 0 yields
`AB` — the second insert lands at position `offset`, i.e. before the bytes
the first call placed there, so the claim as stated fails. -/
theorem insert_twice_same_offset_swaps :
    ((insert_str (with_capacity 0) 0 [some 65]).bind fun x =>
        insert_str x 0 [some 66]).map content = .ok [some 66, some 65] ∧
    (insert_str (with_capacity 0) 0 ([some 65] ++ [some 66])).map content
      = .ok [some 65, some 66] ∧
    ([some 66, some 65] : List Byte) ≠ [some 65, some 66] := by
  decide

/-- C7 (amended): for a well-formed buffer, an offset at or before the gap
(`offset <= len(head)`, where `insert_str` places data correctly), and
payloads of combined length at most `2 ^ 24` (below the `f32` rounding slip
of C6), inserting `a` at `offset` and then `c` at the same `offset` yields
the same logical content as the single call inserting `c ++ a` — the later
payload ends up before the earlier one. -/
theorem insert_insert_eq_insert_append (b : GapBuffer) (offset : Nat)
    (a c : List Byte) (hwf : wf b) (hoff : offset ≤ b.gs)
    (hlen : a.length + c.length ≤ 2 ^ 24) :
    ∃ b1 b2 b3, insert_str b offset a = .ok b1 ∧
      insert_str b1 offset c = .ok b2 ∧
      insert_str b offset (c ++ a) = .ok b3 ∧
      content b2 = content b3 := by
  have hwf1' := hwf.1
  have hwf2' := hwf.2
  have hoffL : offset ≤ (content b).length := by
    rw [content_length b hwf]
    simp only [buf_len]
    omega
  obtain ⟨b1, h1, hwf1, hgs1, hc1⟩ :=
    insert_str_total b offset a hwf hoff (Or.inr (by omega))
  obtain ⟨b2, h2, hwf2, hgs2, hc2⟩ :=
    insert_str_total b1 offset c hwf1 (by omega) (Or.inr (by omega))
  obtain ⟨b3, h3, _, _, hc3⟩ :=
    insert_str_total b offset (c ++ a) hwf hoff
      (Or.inr (by rw [List.length_append]; omega))
  refine ⟨b1, b2, b3, h1, h2, h3, ?_⟩
  rw [hc2, hc3, hc1]
  have htk : ((content b).take offset).length = offset := by
    rw [List.length_take]
    omega
  have e1 : ((content b).take offset ++ a ++ (content b).drop offset).take offset
      = (content b).take offset := by
    rw [List.append_assoc]
    exact List.take_left' htk
  have e2 : ((content b).take offset ++ a ++ (content b).drop offset).drop offset
      = a ++ (content b).drop offset := by
    rw [List.append_assoc]
    exact List.drop_left' htk
  rw [e1, e2]
  simp [List.append_assoc]

theorem insert_insert_eq_insert_append_witness :
    ∃ b1 b2 b3,
      insert_str ⟨[some 65, some 66], 2, 2⟩ 2 [some 67] = .ok b1 ∧
      insert_str b1 2 [some 68] = .ok b2 ∧
      insert_str ⟨[some 65, some 66], 2, 2⟩ 2 ([some 68] ++ [some 67]) = .ok b3 ∧
      content b2 = content b3 :=
  insert_insert_eq_insert_append ⟨[some 65, some 66], 2, 2⟩ 2 [some 67] [some 68]
    (by decide) (by decide) (by decide)


theorem remove_invalid_range_panics_witness :
    remove buf8 0 9 = .error .panic :=
  remove_invalid_range_panics buf8 0 9 (by decide)

theorem remove_matches_reference_witness :
    remove buf8 3 6 = removeSpec buf8 3 6 :=
  remove_matches_reference buf8 3 6 (by decide) (by decide) (by decide)

theorem remove_preserves_capacity_witness :
    ∃ b3, remove buf8 3 6 = .ok b3 ∧ b3.buf.length = buf8.buf.length :=
  remove_preserves_capacity buf8 3 6 (by decide) (by decide) (by decide) (by decide)

theorem insert_gap_follows_data_witness :
    (⟨[some 65, none, some 90], 3, 3⟩ : GapBuffer).gs = 2 + 1 :=
  insert_gap_follows_data ⟨[some 65, none, some 66], 1, 2⟩ 2 [some 90]
    ⟨[some 65, none, some 90], 3, 3⟩ (by decide) (by decide) (by decide)
